import Mathlib

/-!
Verification of the gitdocs caching and commit-ticket mapping layer.

Shallow embedding of:
  - `src/gitdocs/store/cache.py` (namespaced TTL cache over a diskcache backing store),
  - `src/gitdocs/store/mappings.py` (commit-ticket mapping store and ticket-key extraction),
  - `src/gitdocs/atlassian/jira_client.py` and `confluence_client.py` (retry policy).

Python strings are modelled as `List Char` where character-level reasoning is needed
(cache keys, ticket-key extraction) and as `String` elsewhere. Machine-level concerns
(actual disk I/O, wall-clock time) are made explicit: time is a `Nat` parameter and the
diskcache backing store is a list of entries with an absolute expiry timestamp.
-/

namespace Gitdocs

/-! ## Cache model (`src/gitdocs/store/cache.py`) -/

/-- One record of the diskcache backing store: a composed string key, a payload and an
absolute expiry timestamp (`none` = never expires). -/
structure CacheEntry (α : Type) where
  key : List Char
  value : α
  expiresAt : Option Nat
deriving DecidableEq

/-- State of `Cache`: the `enabled` flag, the default TTL and the backing store.
(`cache_dir` and `max_size` do not affect the modelled behaviour.) -/
structure Cache (α : Type) where
  enabled : Bool
  defaultTtl : Nat
  store : List (CacheEntry α)
deriving DecidableEq

/-- `Cache._make_key` (cache.py lines 51-53): `f"{namespace}:{key}"`. -/
def makeKey (ns key : List Char) : List Char := ns ++ ':' :: key

/-- Lookup of a key in the backing store (diskcache keys are unique, so first match). -/
def diskFind {α : Type} (store : List (CacheEntry α)) (k : List Char) : Option (CacheEntry α) :=
  store.find? (fun e => e.key == k)

/-- Whether an entry's expiry time has passed at time `now`. -/
def entryExpired {α : Type} (e : CacheEntry α) (now : Nat) : Bool :=
  match e.expiresAt with
  | none => false
  | some t => decide (t < now)

/-- Modelled from the spec: the external `diskcache` library's `get` (the backing store is a
third-party dependency, not part of this repository). Per the spec's CacheEntry lifecycle, a
read returns the default when the key is absent or the entry's `expires_at` has passed. -/
def diskGet {α : Type} (store : List (CacheEntry α)) (now : Nat) (k : List Char)
    (default : α) : α :=
  match diskFind store k with
  | none => default
  | some e => if entryExpired e now then default else e.value

/-- Modelled from the spec: the external `diskcache` library's `set` with `expire` seconds
overwrites any entry for the same key and records expiry = write time + TTL. -/
def diskSet {α : Type} (store : List (CacheEntry α)) (k : List Char) (v : α)
    (expiresAt : Option Nat) : List (CacheEntry α) :=
  store.filter (fun e => !(e.key == k)) ++ [⟨k, v, expiresAt⟩]

/-- `Cache.get` (cache.py lines 55-84): returns `default` when disabled, absent or expired;
backend errors are caught, which the embedding reflects by totality (the function always
returns a value). -/
def cacheGet {α : Type} (c : Cache α) (now : Nat) (ns key : List Char) (default : α) : α :=
  if c.enabled then diskGet c.store now (makeKey ns key) default else default

/-- `Cache.set` (cache.py lines 86-112): no-op when disabled, else writes with
expiry = now + (ttl or default_ttl). -/
def cacheSet {α : Type} (c : Cache α) (now : Nat) (ns key : List Char) (v : α)
    (ttl : Option Nat) : Cache α :=
  if c.enabled then
    { c with store := diskSet c.store (makeKey ns key) v (some (now + ttl.getD c.defaultTtl)) }
  else c

/-- `Cache.clear_namespace` (cache.py lines 126-150): deletes every string key starting with
`f"{namespace}:"`, returning how many were deleted; returns 0 when disabled. -/
def clearNamespace {α : Type} (c : Cache α) (ns : List Char) : Cache α × Nat :=
  if c.enabled then
    ({ c with store := c.store.filter (fun e => !((ns ++ [':']).isPrefixOf e.key)) },
     (c.store.filter (fun e => (ns ++ [':']).isPrefixOf e.key)).length)
  else (c, 0)

/-- The wrapper produced by `Cache.cached` (cache.py lines 160-194), evaluated at one call:
reads the cache with default `None`; a non-`None` hit is returned without calling `f`;
otherwise `f` is called and its result (even `None`) is stored. The Python value domain is
modelled as `Option V` with `none` standing for Python `None`. Returns
(result, whether `f` was invoked, new cache state). -/
def cachedCall {V : Type} (c : Cache (Option V)) (now : Nat) (ns key : List Char)
    (ttl : Option Nat) (f : Unit → Option V) : Option V × Bool × Cache (Option V) :=
  match cacheGet c now ns key none with
  | some v => (some v, false, c)
  | none =>
    let r := f ()
    (r, true, cacheSet c now ns key r ttl)

/-! ### Namespace-isolation lemmas (C1) -/

lemma colon_append_prefix_eq :
    ∀ (a b k : List Char), ':' ∉ a → ':' ∉ b →
      (a ++ [':']) <+: (b ++ ':' :: k) → a = b := by
  intro a
  induction a with
  | nil =>
    intro b k _ hb h
    cases b with
    | nil => rfl
    | cons c bs =>
      obtain ⟨t, ht⟩ := h
      simp only [List.nil_append, List.cons_append, List.cons.injEq] at ht
      exact absurd (ht.1 ▸ List.mem_cons_self c bs) (ht.1 ▸ hb)
  | cons c as ih =>
    intro b k ha hb h
    cases b with
    | nil =>
      obtain ⟨t, ht⟩ := h
      simp only [List.cons_append, List.nil_append, List.cons.injEq] at ht
      simp [ht.1] at ha
    | cons d bs =>
      obtain ⟨t, ht⟩ := h
      simp only [List.cons_append, List.cons.injEq, List.append_assoc] at ht
      have has : ':' ∉ as := fun hm => ha (List.mem_cons_of_mem c hm)
      have hbs : ':' ∉ bs := fun hm => hb (List.mem_cons_of_mem d hm)
      have : as = bs := ih bs k has hbs ⟨t, by simpa using ht.2⟩
      simp [ht.1, this]

lemma length_filter_split {α : Type} (l : List (CacheEntry α)) (p : CacheEntry α → Bool) :
    (l.filter p).length = l.length - (l.filter (fun e => !(p e))).length := by
  have h := List.length_eq_length_filter_add (l := l) p
  omega

end Gitdocs

namespace Gitdocs

/-- C1 (amended): `clear_namespace(a)` removes only entries whose composed key starts with
`a ++ ":"`; it never removes an entry stored under a distinct namespace `b` provided neither
namespace contains the separator `':'` (so in particular when `b` is a mere prefix or suffix
of `a`); and the returned count is exactly the number of entries removed. -/
theorem clear_namespace_isolation {α : Type} [DecidableEq α] (c : Cache α) (a : List Char) :
    (∀ e ∈ c.store, e ∉ (clearNamespace c a).1.store → (a ++ [':']) <+: e.key) ∧
    (∀ (b k : List Char) (v : α) (exp : Option Nat),
      a ≠ b → ':' ∉ a → ':' ∉ b →
      (⟨makeKey b k, v, exp⟩ : CacheEntry α) ∈ c.store →
      (⟨makeKey b k, v, exp⟩ : CacheEntry α) ∈ (clearNamespace c a).1.store) ∧
    (clearNamespace c a).2 = c.store.length - (clearNamespace c a).1.store.length := by
  by_cases hen : c.enabled
  · refine ⟨?_, ?_, ?_⟩
    · intro e he hnot
      simp only [clearNamespace, hen, if_true] at hnot
      rw [List.mem_filter] at hnot
      push_neg at hnot
      have := hnot he
      have hpf : (a ++ [':']).isPrefixOf e.key = true := by
        cases hpf : (a ++ [':']).isPrefixOf e.key with
        | true => rfl
        | false => simp [hpf] at this
      exact List.isPrefixOf_iff_prefix.mp hpf
    · intro b k v exp hab ha hb hmem
      simp only [clearNamespace, hen, if_true]
      rw [List.mem_filter]
      refine ⟨hmem, ?_⟩
      have hnp : ¬ ((a ++ [':']) <+: makeKey b k) := fun h =>
        hab (colon_append_prefix_eq a b k ha hb h)
      have : (a ++ [':']).isPrefixOf (makeKey b k) = false := by
        cases hpf : (a ++ [':']).isPrefixOf (makeKey b k) with
        | false => rfl
        | true => exact absurd (List.isPrefixOf_iff_prefix.mp hpf) hnp
      simp [this]
    · simp only [clearNamespace, hen, if_true]
      exact length_filter_split c.store _
  · have hen' : c.enabled = false := by simpa using hen
    refine ⟨?_, ?_, ?_⟩
    · intro e he hnot
      simp [clearNamespace, hen'] at hnot
      exact absurd he hnot
    · intro b k v exp _ _ _ hmem
      simpa [clearNamespace, hen'] using hmem
    · simp [clearNamespace, hen']

/-- Witness for C1 at a concrete cache: clearing namespace `"ns"` leaves the entry of the
distinct namespace `"n"` (a prefix of `"ns"`) untouched, and reports one removal. -/
theorem clear_namespace_isolation_witness :
    (⟨makeKey ['n'] ['k'], 7, none⟩ : CacheEntry Nat) ∈
      (clearNamespace
        (⟨true, 300, [⟨makeKey ['n', 's'] ['k'], 5, none⟩, ⟨makeKey ['n'] ['k'], 7, none⟩]⟩ :
          Cache Nat) ['n', 's']).1.store ∧
    (clearNamespace
        (⟨true, 300, [⟨makeKey ['n', 's'] ['k'], 5, none⟩, ⟨makeKey ['n'] ['k'], 7, none⟩]⟩ :
          Cache Nat) ['n', 's']).2 = 1 := by
  constructor
  · exact (clear_namespace_isolation _ ['n', 's']).2.1 ['n'] ['k'] 7 none
      (by decide) (by decide) (by decide) (by decide)
  · have h := (clear_namespace_isolation
      (⟨true, 300, [⟨makeKey ['n', 's'] ['k'], 5, none⟩, ⟨makeKey ['n'] ['k'], 7, none⟩]⟩ :
        Cache Nat) ['n', 's']).2.2
    simpa using h

/-- C1 counterexample to the claim as stated: namespaces are isolated only up to the `':'`
separator. For the distinct namespaces a = "x" and b = "x:y", the entry stored under b has
composed key "x:y:k" which starts with "a:", so `clear_namespace("x")` removes it. -/
theorem clear_namespace_isolation_cex :
    (['x'] : List Char) ≠ ['x', ':', 'y'] ∧
    (⟨makeKey ['x', ':', 'y'] ['k'], 0, none⟩ : CacheEntry Nat) ∈
      (⟨true, 300, [⟨makeKey ['x', ':', 'y'] ['k'], 0, none⟩]⟩ : Cache Nat).store ∧
    (clearNamespace (⟨true, 300, [⟨makeKey ['x', ':', 'y'] ['k'], 0, none⟩]⟩ : Cache Nat)
      ['x']).1.store = [] := by
  refine ⟨by decide, by decide, ?_⟩
  rfl

end Gitdocs

namespace Gitdocs

/-! ### Cache read contract (C2) and memoization wrapper (C9) -/

lemma diskFind_diskSet_self {α : Type} (store : List (CacheEntry α)) (k : List Char) (v : α)
    (exp : Option Nat) : diskFind (diskSet store k v exp) k = some ⟨k, v, exp⟩ := by
  unfold diskFind diskSet
  rw [List.find?_append]
  have h1 : (store.filter (fun e => !(e.key == k))).find? (fun e => e.key == k) = none := by
    rw [List.find?_eq_none]
    intro x hx
    rw [List.mem_filter] at hx
    simpa using hx.2
  rw [h1]
  simp

lemma cacheSet_enabled {α : Type} (c : Cache α) (now : Nat) (ns key : List Char) (v : α)
    (ttl : Option Nat) : (cacheSet c now ns key v ttl).enabled = c.enabled := by
  unfold cacheSet
  by_cases h : c.enabled <;> simp [h]

end Gitdocs

namespace Gitdocs

/-- C2: `Cache.get` returns the default (and, being total, never fails) whenever the cache
is disabled, the entry is absent, or the entry's expiry time has passed — an expired entry is
never returned even though it is still physically present in the backing store. -/
theorem cache_get_default_contract {α : Type} (c : Cache α) (now : Nat) (ns key : List Char)
    (default : α) :
    (c.enabled = false → cacheGet c now ns key default = default) ∧
    (diskFind c.store (makeKey ns key) = none → cacheGet c now ns key default = default) ∧
    (∀ e, diskFind c.store (makeKey ns key) = some e → entryExpired e now = true →
      cacheGet c now ns key default = default) := by
  refine ⟨?_, ?_, ?_⟩
  · intro h
    simp [cacheGet, h]
  · intro h
    by_cases hen : c.enabled <;> simp [cacheGet, diskGet, hen, h]
  · intro e hfind hexp
    by_cases hen : c.enabled <;> simp [cacheGet, diskGet, hen, hfind, hexp]

/-- Witness for C2: a value stored with expiry 10 is still physically in the backing store at
time 11 but `get` returns the default `0`. -/
theorem cache_get_default_contract_witness :
    cacheGet (⟨true, 300, [⟨makeKey ['n'] ['k'], 5, some 10⟩]⟩ : Cache Nat) 11 ['n'] ['k'] 0
      = 0 :=
  (cache_get_default_contract (⟨true, 300, [⟨makeKey ['n'] ['k'], 5, some 10⟩]⟩ : Cache Nat)
      11 ['n'] ['k'] 0).2.2 ⟨makeKey ['n'] ['k'], 5, some 10⟩ rfl rfl

/-- C9: the `Cache.cached` wrapper treats a cached `None` as a miss. If the wrapped function
returns `None`, a first (missing) call invokes it, returns `None`, and every later call on the
resulting state invokes the underlying function again (the stored `None` is never served);
a result is served from the cache only if it is non-`None`; and a non-`None` result is stored
and served (without re-invocation) on a later call within its TTL. -/
theorem cached_none_is_miss {V : Type} (c : Cache (Option V)) (now : Nat) (ns key : List Char)
    (ttl : Option Nat) (f : Unit → Option V) :
    (f () = none → cacheGet c now ns key none = none →
      (cachedCall c now ns key ttl f).2.1 = true ∧
      (cachedCall c now ns key ttl f).1 = none ∧
      (∀ (now' : Nat) (g : Unit → Option V),
        (cachedCall (cachedCall c now ns key ttl f).2.2 now' ns key ttl g).2.1 = true)) ∧
    ((cachedCall c now ns key ttl f).2.1 = false → ∃ v, (cachedCall c now ns key ttl f).1 = some v) ∧
    (∀ v, f () = some v → cacheGet c now ns key none = none → c.enabled = true →
      ∀ (now' : Nat) (g : Unit → Option V), now' ≤ now + ttl.getD c.defaultTtl →
        (cachedCall c now ns key ttl f).1 = some v ∧
        cachedCall (cachedCall c now ns key ttl f).2.2 now' ns key ttl g
          = (some v, false, (cachedCall c now ns key ttl f).2.2)) := by
  refine ⟨?_, ?_, ?_⟩
  · intro hf hmiss
    have h1 : cachedCall c now ns key ttl f = (none, true, cacheSet c now ns key none ttl) := by
      simp [cachedCall, hmiss, hf]
    refine ⟨by simp [h1], by simp [h1], ?_⟩
    intro now' g
    rw [h1]
    by_cases hen : c.enabled
    · have hget : cacheGet (cacheSet c now ns key none ttl) now' ns key none = none := by
        simp only [cacheGet, cacheSet, hen, if_true]
        simp only [diskGet, diskFind_diskSet_self]
        by_cases hx : entryExpired (⟨makeKey ns key, none, some (now + ttl.getD c.defaultTtl)⟩ :
            CacheEntry (Option V)) now' <;> simp [hx]
      simp [cachedCall, hget]
    · have hen' : c.enabled = false := by simpa using hen
      have hget : cacheGet (cacheSet c now ns key none ttl) now' ns key none = none := by
        simp [cacheGet, cacheSet, hen']
      simp [cachedCall, hget]
  · intro h
    unfold cachedCall at h ⊢
    cases hg : cacheGet c now ns key none with
    | some v => exact ⟨v, by simp [hg]⟩
    | none => simp [hg] at h
  · intro v hf hmiss hen now' g hnow'
    have h1 : cachedCall c now ns key ttl f = (some v, true, cacheSet c now ns key (some v) ttl) := by
      simp [cachedCall, hmiss, hf]
    rw [h1]
    have hget : cacheGet (cacheSet c now ns key (some v) ttl) now' ns key none = some v := by
      simp only [cacheGet, cacheSet, hen, if_true]
      simp only [diskGet, diskFind_diskSet_self]
      have : entryExpired (⟨makeKey ns key, some v, some (now + ttl.getD c.defaultTtl)⟩ :
          CacheEntry (Option V)) now' = false := by
        simp [entryExpired]
        omega
      simp [this]
    exact ⟨rfl, by simp [cachedCall, hget]⟩

/-- Witness for C9 at concrete inputs: on an empty enabled cache a `None`-returning function
is invoked on both of two consecutive calls, and a `42`-returning function is served from the
cache (without re-invocation) on a second call within the TTL. -/
theorem cached_none_is_miss_witness :
    ((cachedCall (⟨true, 300, []⟩ : Cache (Option Nat)) 0 ['n'] ['k'] none (fun _ => none)).2.1
      = true ∧
     (cachedCall (cachedCall (⟨true, 300, []⟩ : Cache (Option Nat)) 0 ['n'] ['k'] none
        (fun _ => none)).2.2 100 ['n'] ['k'] none (fun _ => none)).2.1 = true) ∧
    (cachedCall (cachedCall (⟨true, 300, []⟩ : Cache (Option Nat)) 0 ['n'] ['k'] none
        (fun _ => some 42)).2.2 100 ['n'] ['k'] none (fun _ => none)).1 = some 42 := by
  have h1 := (cached_none_is_miss (⟨true, 300, []⟩ : Cache (Option Nat)) 0 ['n'] ['k'] none
    (fun _ => none)).1 rfl rfl
  have h2 := (cached_none_is_miss (⟨true, 300, []⟩ : Cache (Option Nat)) 0 ['n'] ['k'] none
    (fun _ => some 42)).2.2 42 rfl rfl rfl 100 (fun _ => none) (by decide)
  exact ⟨⟨h1.1, h1.2.2 100 (fun _ => none)⟩, by rw [h2.2]⟩

end Gitdocs

namespace Gitdocs

/-! ## Mapping store model (`src/gitdocs/store/mappings.py`)

Python `dict[str, list[...]]` is modelled as an association list preserving insertion
order (Python dicts iterate in insertion order); an in-place value assignment keeps the
key at its position. `datetime` values are modelled as `Nat`; `datetime.isoformat` and
`datetime.fromisoformat` are mutually inverse on datetimes, so the persisted ISO-8601
timestamp is modelled by the timestamp value it encodes. -/

/-- `TicketCommitMapping` (mappings.py lines 17-26). -/
structure TicketCommitMapping where
  ticket_key : String
  commit_sha : String
  commit_message : String
  mapped_at : Nat
  synced : Bool
  synced_at : Option Nat
deriving DecidableEq

/-- `MappingStore` (mappings.py lines 29-33): `mappings : dict[str, list[TicketCommitMapping]]`. -/
structure MappingStore where
  mappings : List (String × List TicketCommitMapping)
deriving DecidableEq

/-- Python `d[k]` lookup on the association-list model of a dict. -/
def alistLookup {β : Type} (l : List (String × β)) (k : String) : Option β :=
  (l.find? (fun p => p.1 == k)).map (fun p => p.2)

/-- Python `d[k] = v` for a key already present: the value changes in place, the key keeps
its position. -/
def alistUpdate {β : Type} (l : List (String × β)) (k : String) (v : β) :
    List (String × β) :=
  l.map (fun p => if p.1 == k then (p.1, v) else p)

/-- `MappingStore.add_mapping` (mappings.py lines 35-45): create the ticket's list if absent,
skip if a mapping with the same `commit_sha` already exists, else append. -/
def addMapping (s : MappingStore) (m : TicketCommitMapping) : MappingStore :=
  match alistLookup s.mappings m.ticket_key with
  | none => ⟨s.mappings ++ [(m.ticket_key, [m])]⟩
  | some l =>
    if l.any (fun x => x.commit_sha == m.commit_sha) then s
    else ⟨alistUpdate s.mappings m.ticket_key (l ++ [m])⟩

/-- The loop body of `mark_synced` (mappings.py lines 63-67): set `synced = True` and
`synced_at = now` on the first mapping with the given sha, then `break`. -/
def markFirst (l : List TicketCommitMapping) (sha : String) (now : Nat) :
    List TicketCommitMapping :=
  match l with
  | [] => []
  | m :: rest =>
    if m.commit_sha == sha then { m with synced := true, synced_at := some now } :: rest
    else m :: markFirst rest sha now

/-- `MappingStore.mark_synced` (mappings.py lines 60-67), with `datetime.now()` passed
explicitly as `now`. -/
def markSynced (s : MappingStore) (tk sha : String) (now : Nat) : MappingStore :=
  match alistLookup s.mappings tk with
  | none => s
  | some l => ⟨alistUpdate s.mappings tk (markFirst l sha now)⟩

/-- One record of the persisted form produced by `to_dict` (mappings.py lines 71-84); the
ISO-8601 timestamp strings are modelled by the timestamps they encode. -/
structure MappingRecord where
  ticket_key : String
  commit_sha : String
  commit_message : String
  mapped_at : Nat
  synced : Bool
  synced_at : Option Nat
deriving DecidableEq

/-- Serialization of one mapping inside `to_dict`. -/
def toRecord (m : TicketCommitMapping) : MappingRecord :=
  ⟨m.ticket_key, m.commit_sha, m.commit_message, m.mapped_at, m.synced, m.synced_at⟩

/-- The `TicketCommitMapping(...)` construction inside `from_dict` (mappings.py lines 92-99). -/
def ofRecord (r : MappingRecord) : TicketCommitMapping :=
  ⟨r.ticket_key, r.commit_sha, r.commit_message, r.mapped_at, r.synced, r.synced_at⟩

/-- `MappingStore.to_dict` (mappings.py lines 69-84). -/
def toDict (s : MappingStore) : List (String × List MappingRecord) :=
  s.mappings.map (fun p => (p.1, p.2.map toRecord))

/-- `MappingStore.from_dict` (mappings.py lines 86-100): a fresh store, filled by
`add_mapping` over every record in order; each record is indexed by its own
`ticket_key` field, the outer dictionary key is ignored. -/
def fromDict (d : List (String × List MappingRecord)) : MappingStore :=
  d.foldl (fun store p => p.2.foldl (fun st r => addMapping st (ofRecord r)) store) ⟨[]⟩

/-- Stores reachable through the public mutators from a fresh store. -/
inductive Reachable : MappingStore → Prop
  | empty : Reachable ⟨[]⟩
  | add (s : MappingStore) (m : TicketCommitMapping) :
      Reachable s → Reachable (addMapping s m)
  | mark (s : MappingStore) (tk sha : String) (now : Nat) :
      Reachable s → Reachable (markSynced s tk sha now)

/-- Well-formedness invariants maintained by the mapping store: outer keys are distinct,
every mapping sits in the list of its own ticket key, per-ticket commit SHAs are distinct,
and no ticket has an empty list. -/
def WF (s : MappingStore) : Prop :=
  (s.mappings.map Prod.fst).Nodup ∧
  (∀ p ∈ s.mappings, ∀ m ∈ p.2, m.ticket_key = p.1) ∧
  (∀ p ∈ s.mappings, (p.2.map (fun m => m.commit_sha)).Nodup) ∧
  (∀ p ∈ s.mappings, p.2 ≠ [])

end Gitdocs

namespace Gitdocs

/-! ### Association-list and invariant lemmas for the mapping store -/

lemma alistLookup_eq_none_iff {β : Type} (l : List (String × β)) (k : String) :
    alistLookup l k = none ↔ k ∉ l.map Prod.fst := by
  unfold alistLookup
  rw [Option.map_eq_none', List.find?_eq_none]
  constructor
  · intro h hk
    obtain ⟨p, hp, hfst⟩ := List.mem_map.mp hk
    exact h p hp (by simp [hfst])
  · intro h p hp hbeq
    exact h (List.mem_map.mpr ⟨p, hp, by simpa using hbeq⟩)

lemma alistLookup_mem {β : Type} {l : List (String × β)} {k : String} {v : β}
    (h : alistLookup l k = some v) : (k, v) ∈ l := by
  unfold alistLookup at h
  rw [Option.map_eq_some'] at h
  obtain ⟨p, hp, hv⟩ := h
  have hmem := List.mem_of_find?_eq_some hp
  have hpred := List.find?_some hp
  have hk : p.1 = k := by simpa using hpred
  have : p = (k, v) := by
    cases p
    simp_all
  exact this ▸ hmem

lemma alistUpdate_map_fst {β : Type} (l : List (String × β)) (k : String) (v : β) :
    (alistUpdate l k v).map Prod.fst = l.map Prod.fst := by
  unfold alistUpdate
  rw [List.map_map]
  apply List.map_congr_left
  intro p _
  by_cases h : p.1 == k
  · simp only [Function.comp_apply, if_pos h]
  · simp only [Function.comp_apply, if_neg h]

lemma mem_alistUpdate {β : Type} {l : List (String × β)} {k : String} {v : β}
    {p : String × β} (h : p ∈ alistUpdate l k v) :
    (p.1 = k ∧ p.2 = v) ∨ (p ∈ l ∧ p.1 ≠ k) := by
  unfold alistUpdate at h
  obtain ⟨q, hq, hpq⟩ := List.mem_map.mp h
  by_cases hk : q.1 == k
  · left
    rw [if_pos hk] at hpq
    constructor
    · rw [← hpq]
      simpa using hk
    · rw [← hpq]
  · right
    rw [if_neg hk] at hpq
    exact ⟨hpq ▸ hq, by rw [← hpq]; simpa using hk⟩

lemma alistUpdate_not_mem {β : Type} :
    ∀ (l : List (String × β)) (k : String) (v : β), k ∉ l.map Prod.fst →
      alistUpdate l k v = l := by
  intro l k v h
  unfold alistUpdate
  have : ∀ p ∈ l, (if p.1 == k then (p.1, v) else p) = p := by
    intro p hp
    have : p.1 ≠ k := fun he => h (List.mem_map.mpr ⟨p, hp, he⟩)
    simp [this]
  exact (List.map_congr_left this).trans (List.map_id' l)

lemma alistUpdate_lookup_self {β : Type} :
    ∀ (l : List (String × β)) (k : String) (v : β), (l.map Prod.fst).Nodup →
      alistLookup l k = some v → alistUpdate l k v = l := by
  intro l
  induction l with
  | nil => intro k v _ h; simp [alistLookup] at h
  | cons q rest ih =>
    intro k v hnodup h
    by_cases hk : q.1 == k
    · have hqk : q.1 = k := by simpa using hk
      have hv : v = q.2 := by
        simp [alistLookup, List.find?, hk] at h
        exact h.symm
      have hrest : k ∉ rest.map Prod.fst := by
        rw [List.map_cons, List.nodup_cons] at hnodup
        exact hqk ▸ hnodup.1
      unfold alistUpdate
      simp only [List.map_cons, if_pos hk]
      rw [show (fun p => if p.1 == k then (p.1, v) else p) = fun p : String × β =>
            if p.1 == k then (p.1, v) else p from rfl]
      have : alistUpdate rest k v = rest := alistUpdate_not_mem rest k v hrest
      unfold alistUpdate at this
      rw [this, hv]
    · have hrest : alistLookup rest k = some v := by
        simpa [alistLookup, List.find?, hk] using h
      have hnodup' : (rest.map Prod.fst).Nodup := by
        rw [List.map_cons, List.nodup_cons] at hnodup
        exact hnodup.2
      unfold alistUpdate
      simp only [List.map_cons, if_neg hk]
      have := ih k v hnodup' hrest
      unfold alistUpdate at this
      rw [this]

lemma alistLookup_append_last {β : Type} (pre : List (String × β)) (t : String) (cur : β)
    (h : t ∉ pre.map Prod.fst) : alistLookup (pre ++ [(t, cur)]) t = some cur := by
  unfold alistLookup
  rw [List.find?_append]
  have h1 : pre.find? (fun p => p.1 == t) = none := by
    rw [List.find?_eq_none]
    intro p hp hbeq
    exact h (List.mem_map.mpr ⟨p, hp, by simpa using hbeq⟩)
  rw [h1]
  simp

lemma alistUpdate_append_last {β : Type} (pre : List (String × β)) (t : String) (cur v : β)
    (h : t ∉ pre.map Prod.fst) :
    alistUpdate (pre ++ [(t, cur)]) t v = pre ++ [(t, v)] := by
  unfold alistUpdate
  rw [List.map_append]
  have h1 : pre.map (fun p => if p.1 == t then (p.1, v) else p) = pre := by
    apply List.map_congr_left ?_ |>.trans (List.map_id pre)
    intro p hp
    have : p.1 ≠ t := fun he => h (List.mem_map.mpr ⟨p, hp, he⟩)
    simp [this]
  rw [h1]
  simp

lemma markFirst_map_sha (l : List TicketCommitMapping) (sha : String) (now : Nat) :
    (markFirst l sha now).map (fun m => m.commit_sha) = l.map (fun m => m.commit_sha) := by
  induction l with
  | nil => rfl
  | cons m rest ih =>
    unfold markFirst
    by_cases h : m.commit_sha == sha <;> simp [h, ih]

lemma markFirst_ticket_keys (l : List TicketCommitMapping) (sha : String) (now : Nat) :
    (markFirst l sha now).map (fun m => m.ticket_key) = l.map (fun m => m.ticket_key) := by
  induction l with
  | nil => rfl
  | cons m rest ih =>
    unfold markFirst
    by_cases h : m.commit_sha == sha <;> simp [h, ih]

lemma markFirst_ne_nil {l : List TicketCommitMapping} (h : l ≠ []) (sha : String) (now : Nat) :
    markFirst l sha now ≠ [] := by
  cases l with
  | nil => exact absurd rfl h
  | cons m rest =>
    unfold markFirst
    by_cases hm : m.commit_sha == sha <;> simp [hm]

lemma markFirst_no_match :
    ∀ (l : List TicketCommitMapping) (sha : String) (now : Nat),
      (∀ m ∈ l, m.commit_sha ≠ sha) → markFirst l sha now = l := by
  intro l
  induction l with
  | nil => intro sha now _; rfl
  | cons m rest ih =>
    intro sha now h
    unfold markFirst
    have hm : (m.commit_sha == sha) = false := by
      simpa using h m (List.mem_cons_self m rest)
    rw [hm]
    simp only [Bool.false_eq_true, if_false]
    rw [ih sha now (fun x hx => h x (List.mem_cons_of_mem m hx))]

end Gitdocs

namespace Gitdocs

lemma wf_empty : WF ⟨[]⟩ := by
  refine ⟨List.nodup_nil, ?_, ?_, ?_⟩ <;> intro p hp <;> simp at hp

lemma wf_addMapping {s : MappingStore} (m : TicketCommitMapping) (h : WF s) :
    WF (addMapping s m) := by
  obtain ⟨hkeys, htk, hsha, hne⟩ := h
  unfold addMapping
  cases hl : alistLookup s.mappings m.ticket_key with
  | none =>
    have hnk : m.ticket_key ∉ s.mappings.map Prod.fst :=
      (alistLookup_eq_none_iff s.mappings m.ticket_key).mp hl
    refine ⟨?_, ?_, ?_, ?_⟩
    · rw [List.map_append, List.nodup_append]
      refine ⟨hkeys, List.nodup_singleton _, ?_⟩
      intro a ha hb
      rw [List.mem_map] at hb
      obtain ⟨q, hq, hqe⟩ := hb
      have : a = m.ticket_key := by
        have : q = (m.ticket_key, [m]) := by simpa using hq
        rw [this] at hqe
        exact hqe.symm
      subst this
      exact hnk ha
    · intro p hp x hx
      rcases List.mem_append.mp hp with hp' | hp'
      · exact htk p hp' x hx
      · have : p = (m.ticket_key, [m]) := by simpa using hp'
        subst this
        have : x = m := by simpa using hx
        subst this
        rfl
    · intro p hp
      rcases List.mem_append.mp hp with hp' | hp'
      · exact hsha p hp'
      · have : p = (m.ticket_key, [m]) := by simpa using hp'
        subst this
        simp
    · intro p hp
      rcases List.mem_append.mp hp with hp' | hp'
      · exact hne p hp'
      · have : p = (m.ticket_key, [m]) := by simpa using hp'
        subst this
        simp
  | some l =>
    show WF (if l.any (fun x => x.commit_sha == m.commit_sha) then s
      else ⟨alistUpdate s.mappings m.ticket_key (l ++ [m])⟩)
    by_cases hdup : l.any (fun x => x.commit_sha == m.commit_sha)
    · rw [if_pos hdup]
      exact ⟨hkeys, htk, hsha, hne⟩
    · rw [if_neg hdup]
      have hmem : (m.ticket_key, l) ∈ s.mappings := alistLookup_mem hl
      have hlsha : (l.map (fun x => x.commit_sha)).Nodup := hsha _ hmem
      have hltk : ∀ x ∈ l, x.ticket_key = m.ticket_key := htk _ hmem
      have hnotin : m.commit_sha ∉ l.map (fun x => x.commit_sha) := by
        intro hin
        obtain ⟨x, hx, hxe⟩ := List.mem_map.mp hin
        exact absurd (List.any_eq_true.mpr ⟨x, hx, by simpa using hxe⟩) hdup
      refine ⟨?_, ?_, ?_, ?_⟩
      · rw [alistUpdate_map_fst]
        exact hkeys
      · intro p hp x hx
        rcases mem_alistUpdate hp with ⟨hp1, hp2⟩ | ⟨hp', _⟩
        · rw [hp1]
          rw [hp2] at hx
          rcases List.mem_append.mp hx with hx' | hx'
          · exact hltk x hx'
          · have : x = m := by simpa using hx'
            subst this
            rfl
        · exact htk p hp' x hx
      · intro p hp
        rcases mem_alistUpdate hp with ⟨_, hp2⟩ | ⟨hp', _⟩
        · rw [hp2, List.map_append, List.nodup_append]
          refine ⟨hlsha, by simp, ?_⟩
          intro a ha hb
          have : a = m.commit_sha := by simpa using hb
          subst this
          exact hnotin ha
        · exact hsha p hp'
      · intro p hp
        rcases mem_alistUpdate hp with ⟨_, hp2⟩ | ⟨hp', _⟩
        · rw [hp2]
          simp
        · exact hne p hp'

lemma wf_markSynced {s : MappingStore} (tk sha : String) (now : Nat) (h : WF s) :
    WF (markSynced s tk sha now) := by
  obtain ⟨hkeys, htk, hsha, hne⟩ := h
  unfold markSynced
  cases hl : alistLookup s.mappings tk with
  | none => exact ⟨hkeys, htk, hsha, hne⟩
  | some l =>
    have hmem : (tk, l) ∈ s.mappings := alistLookup_mem hl
    refine ⟨?_, ?_, ?_, ?_⟩
    · rw [alistUpdate_map_fst]
      exact hkeys
    · intro p hp x hx
      rcases mem_alistUpdate hp with ⟨hp1, hp2⟩ | ⟨hp', _⟩
      · subst hp1
        rw [hp2] at hx
        have : x.ticket_key ∈ (markFirst l sha now).map (fun m => m.ticket_key) :=
          List.mem_map.mpr ⟨x, hx, rfl⟩
        rw [markFirst_ticket_keys] at this
        obtain ⟨y, hy, hye⟩ := List.mem_map.mp this
        rw [← hye]
        exact htk _ hmem y hy
      · exact htk p hp' x hx
    · intro p hp
      rcases mem_alistUpdate hp with ⟨_, hp2⟩ | ⟨hp', _⟩
      · rw [hp2, markFirst_map_sha]
        exact hsha _ hmem
      · exact hsha p hp'
    · intro p hp
      rcases mem_alistUpdate hp with ⟨_, hp2⟩ | ⟨hp', _⟩
      · rw [hp2]
        exact markFirst_ne_nil (hne _ hmem) sha now
      · exact hne p hp'

lemma wf_reachable {s : MappingStore} (h : Reachable s) : WF s := by
  induction h with
  | empty => exact wf_empty
  | add s m _ ih => exact wf_addMapping m ih
  | mark s tk sha now _ ih => exact wf_markSynced tk sha now ih

end Gitdocs

namespace Gitdocs

lemma ofRecord_toRecord (m : TicketCommitMapping) : ofRecord (toRecord m) = m := rfl

lemma foldl_addMapping_same (t : String) :
    ∀ (l cur : List TicketCommitMapping) (pre : List (String × List TicketCommitMapping)),
      t ∉ pre.map Prod.fst →
      (∀ m ∈ l, m.ticket_key = t) →
      (((cur ++ l).map (fun m => m.commit_sha)).Nodup) →
      l.foldl (fun st m => addMapping st m) ⟨pre ++ [(t, cur)]⟩ = ⟨pre ++ [(t, cur ++ l)]⟩ := by
  intro l
  induction l with
  | nil => intro cur pre _ _ _; simp
  | cons m rest ih =>
    intro cur pre hpre hl hnodup
    have hmt : m.ticket_key = t := hl m (List.mem_cons_self m rest)
    have hlookup : alistLookup (pre ++ [(t, cur)]) m.ticket_key = some cur := by
      rw [hmt]
      exact alistLookup_append_last pre t cur hpre
    have hnotin : m.commit_sha ∉ cur.map (fun x => x.commit_sha) := by
      intro hin
      rw [List.map_append, List.nodup_append] at hnodup
      exact hnodup.2.2 hin (by simp)
    have hany : (cur.any fun x => x.commit_sha == m.commit_sha) = false := by
      rw [Bool.eq_false_iff]
      intro hany
      obtain ⟨x, hx, hxe⟩ := List.any_eq_true.mp hany
      exact hnotin (List.mem_map.mpr ⟨x, hx, by simpa using hxe⟩)
    have hstep : addMapping ⟨pre ++ [(t, cur)]⟩ m = ⟨pre ++ [(t, cur ++ [m])]⟩ := by
      unfold addMapping
      rw [hlookup]
      show (if cur.any (fun x => x.commit_sha == m.commit_sha) then
          (⟨pre ++ [(t, cur)]⟩ : MappingStore)
        else ⟨alistUpdate (pre ++ [(t, cur)]) m.ticket_key (cur ++ [m])⟩)
        = ⟨pre ++ [(t, cur ++ [m])]⟩
      rw [hany]
      simp only [Bool.false_eq_true, if_false]
      rw [hmt, alistUpdate_append_last pre t cur (cur ++ [m]) hpre]
    rw [List.foldl_cons, hstep]
    have hrest : ∀ x ∈ rest, x.ticket_key = t := fun x hx => hl x (List.mem_cons_of_mem m hx)
    have hnodup' : (((cur ++ [m]) ++ rest).map (fun x => x.commit_sha)).Nodup := by
      rw [List.append_assoc]
      simpa using hnodup
    rw [ih (cur ++ [m]) pre hpre hrest hnodup']
    rw [List.append_assoc]
    rfl

lemma fromDict_aux :
    ∀ (rest pre : List (String × List TicketCommitMapping)),
      ((pre.map Prod.fst ++ rest.map Prod.fst)).Nodup →
      (∀ p ∈ rest, ∀ m ∈ p.2, m.ticket_key = p.1) →
      (∀ p ∈ rest, (p.2.map (fun m => m.commit_sha)).Nodup) →
      (∀ p ∈ rest, p.2 ≠ []) →
      rest.foldl (fun store p => p.2.foldl (fun st m => addMapping st m) store) ⟨pre⟩
        = ⟨pre ++ rest⟩ := by
  intro rest
  induction rest with
  | nil => intro pre _ _ _ _; simp
  | cons q rest' ih =>
    intro pre hnodup htk hsha hne
    obtain ⟨t, l⟩ := q
    have hlne : l ≠ [] := hne (t, l) (List.mem_cons_self _ _)
    obtain ⟨m₀, ltail, rfl⟩ : ∃ m₀ ltail, l = m₀ :: ltail := by
      cases l with
      | nil => exact absurd rfl hlne
      | cons a b => exact ⟨a, b, rfl⟩
    have htpre : t ∉ pre.map Prod.fst := by
      rw [List.nodup_append] at hnodup
      intro hin
      exact hnodup.2.2 hin (by simp)
    have hm₀t : m₀.ticket_key = t := htk (t, m₀ :: ltail) (List.mem_cons_self _ _) m₀ (by simp)
    have hstep0 : addMapping ⟨pre⟩ m₀ = ⟨pre ++ [(t, [m₀])]⟩ := by
      unfold addMapping
      have : alistLookup pre m₀.ticket_key = none := by
        rw [alistLookup_eq_none_iff, hm₀t]
        exact htpre
      rw [this, hm₀t]
    have hinner : (m₀ :: ltail).foldl (fun st m => addMapping st m) ⟨pre⟩
        = ⟨pre ++ [(t, m₀ :: ltail)]⟩ := by
      rw [List.foldl_cons, hstep0]
      have htail : ∀ x ∈ ltail, x.ticket_key = t := fun x hx =>
        htk (t, m₀ :: ltail) (List.mem_cons_self _ _) x (List.mem_cons_of_mem m₀ hx)
      have hnodupsha : (([m₀] ++ ltail).map (fun x => x.commit_sha)).Nodup := by
        simpa using hsha (t, m₀ :: ltail) (List.mem_cons_self _ _)
      rw [foldl_addMapping_same t ltail [m₀] pre htpre htail hnodupsha]
      rfl
    rw [List.foldl_cons]
    show rest'.foldl (fun store p => p.2.foldl (fun st m => addMapping st m) store)
        ((m₀ :: ltail).foldl (fun st m => addMapping st m) ⟨pre⟩) = ⟨pre ++ (t, m₀ :: ltail) :: rest'⟩
    rw [hinner]
    have hnodup' : (((pre ++ [(t, m₀ :: ltail)]).map Prod.fst) ++ rest'.map Prod.fst).Nodup := by
      rw [List.map_append]
      have : (pre.map Prod.fst ++ [(t, m₀ :: ltail)].map Prod.fst) ++ rest'.map Prod.fst
          = pre.map Prod.fst ++ ((t, m₀ :: ltail) :: rest').map Prod.fst := by
        rw [List.append_assoc]
        rfl
      rw [this]
      exact hnodup
    rw [ih (pre ++ [(t, m₀ :: ltail)]) hnodup'
      (fun p hp => htk p (List.mem_cons_of_mem _ hp))
      (fun p hp => hsha p (List.mem_cons_of_mem _ hp))
      (fun p hp => hne p (List.mem_cons_of_mem _ hp))]
    rw [List.append_assoc]
    rfl

lemma reachable_foldl_add :
    ∀ (l : List MappingRecord) (s : MappingStore), Reachable s →
      Reachable (l.foldl (fun st r => addMapping st (ofRecord r)) s) := by
  intro l
  induction l with
  | nil => intro s h; exact h
  | cons r rest ih =>
    intro s h
    rw [List.foldl_cons]
    exact ih (addMapping s (ofRecord r)) (Reachable.add s (ofRecord r) h)

lemma reachable_fromDict_aux :
    ∀ (d : List (String × List MappingRecord)) (s : MappingStore), Reachable s →
      Reachable (d.foldl
        (fun store p => p.2.foldl (fun st r => addMapping st (ofRecord r)) store) s) := by
  intro d
  induction d with
  | nil => intro s h; exact h
  | cons q rest ih =>
    intro s h
    rw [List.foldl_cons]
    exact ih _ (reachable_foldl_add q.2 s h)

end Gitdocs

namespace Gitdocs

/-- C3: for every `MappingStore` reachable via `add_mapping` / `mark_synced`,
`from_dict (to_dict store)` is equal to the original store — every field of every mapping
(ticket keys, commit SHAs, messages, both timestamps at the persisted precision, the synced
flag) and the per-ticket insertion order are preserved. -/
theorem mapping_store_roundtrip (s : MappingStore) (h : Reachable s) :
    fromDict (toDict s) = s := by
  obtain ⟨hkeys, htk, hsha, hne⟩ := wf_reachable h
  unfold fromDict toDict
  rw [List.foldl_map]
  simp only [List.foldl_map, ofRecord_toRecord]
  rw [fromDict_aux s.mappings [] (by simpa using hkeys) htk hsha hne]
  rfl

/-- Witness for C3: a concrete store built by two `add_mapping` calls and one `mark_synced`
round-trips through serialization unchanged. -/
theorem mapping_store_roundtrip_witness :
    Reachable (markSynced (addMapping (addMapping ⟨[]⟩
        ⟨"PROJ-1", "abc123", "fix bug", 3, false, none⟩)
        ⟨"PROJ-2", "def456", "add feature", 4, false, none⟩) "PROJ-1" "abc123" 9) ∧
    fromDict (toDict (markSynced (addMapping (addMapping ⟨[]⟩
        ⟨"PROJ-1", "abc123", "fix bug", 3, false, none⟩)
        ⟨"PROJ-2", "def456", "add feature", 4, false, none⟩) "PROJ-1" "abc123" 9))
      = markSynced (addMapping (addMapping ⟨[]⟩
        ⟨"PROJ-1", "abc123", "fix bug", 3, false, none⟩)
        ⟨"PROJ-2", "def456", "add feature", 4, false, none⟩) "PROJ-1" "abc123" 9 := by
  refine ⟨?_, ?_⟩
  · exact Reachable.mark _ _ _ _ (Reachable.add _ _ (Reachable.add _ _ Reachable.empty))
  · exact mapping_store_roundtrip _
      (Reachable.mark _ _ _ _ (Reachable.add _ _ (Reachable.add _ _ Reachable.empty)))

/-- C10: in every store reachable via `add_mapping`, `mark_synced` and `from_dict`, each
mapping stored under dictionary key `k` has `ticket_key = k`; `from_dict` itself always
yields a reachable store because it indexes each record by the record's own `ticket_key`
field, ignoring the outer key of the persisted form — demonstrated concretely on a persisted
form whose outer key disagrees with the record. -/
theorem ticket_key_indexing :
    (∀ s : MappingStore, Reachable s → ∀ p ∈ s.mappings, ∀ m ∈ p.2, m.ticket_key = p.1) ∧
    (∀ d : List (String × List MappingRecord), Reachable (fromDict d)) ∧
    fromDict [("WRONG", [⟨"PROJ-1", "abc123", "fix bug", 3, false, none⟩])]
      = ⟨[("PROJ-1", [⟨"PROJ-1", "abc123", "fix bug", 3, false, none⟩])]⟩ := by
  refine ⟨?_, ?_, ?_⟩
  · intro s h
    exact (wf_reachable h).2.1
  · intro d
    exact reachable_fromDict_aux d ⟨[]⟩ Reachable.empty
  · rfl

/-- Witness for C10: the invariant evaluated on a concrete reachable store. -/
theorem ticket_key_indexing_witness :
    (⟨"PROJ-1", "abc123", "fix bug", 3, false, none⟩ : TicketCommitMapping).ticket_key
      = "PROJ-1" :=
  ticket_key_indexing.1 (addMapping ⟨[]⟩ ⟨"PROJ-1", "abc123", "fix bug", 3, false, none⟩)
    (Reachable.add _ _ Reachable.empty)
    ("PROJ-1", [⟨"PROJ-1", "abc123", "fix bug", 3, false, none⟩]) (by decide)
    ⟨"PROJ-1", "abc123", "fix bug", 3, false, none⟩ (by decide)

end Gitdocs

namespace Gitdocs

/-- C6 counterexample to the claim as stated: `mark_synced` has no already-synced guard, so a
repeated `mark_synced` with the same `(ticket_key, commit_sha)` at a later time overwrites
`synced_at`. After marking at time 5 the mapping has `synced_at = some 5`; marking the same
pair again at time 9 changes it to `some 9`. -/
theorem mark_synced_once_cex :
    (markSynced (addMapping ⟨[]⟩ ⟨"PROJ-1", "abc123", "fix bug", 3, false, none⟩)
        "PROJ-1" "abc123" 5).mappings
      = [("PROJ-1", [⟨"PROJ-1", "abc123", "fix bug", 3, true, some 5⟩])] ∧
    (markSynced (markSynced (addMapping ⟨[]⟩ ⟨"PROJ-1", "abc123", "fix bug", 3, false, none⟩)
        "PROJ-1" "abc123" 5) "PROJ-1" "abc123" 9).mappings
      = [("PROJ-1", [⟨"PROJ-1", "abc123", "fix bug", 3, true, some 9⟩])] := by
  constructor <;> rfl

/-- C6 (amended): `mark_synced` sets `synced = true` and `synced_at = now` on the first
mapping whose `commit_sha` matches, every time it is called — so a repeated call with the
same pair overwrites `synced_at` with the newer time — and is a no-op leaving the store
unchanged when no ticket entry or no sha matches. -/
theorem mark_synced_behavior :
    (∀ (s : MappingStore) (tk sha : String) (now : Nat),
      alistLookup s.mappings tk = none → markSynced s tk sha now = s) ∧
    (∀ (s : MappingStore) (tk sha : String) (now : Nat) (l : List TicketCommitMapping),
      Reachable s → alistLookup s.mappings tk = some l → (∀ m ∈ l, m.commit_sha ≠ sha) →
      markSynced s tk sha now = s) ∧
    (∀ (sha : String) (now : Nat) (pre post : List TicketCommitMapping)
      (m : TicketCommitMapping),
      (∀ x ∈ pre, x.commit_sha ≠ sha) → m.commit_sha = sha →
      markFirst (pre ++ m :: post) sha now
        = pre ++ { m with synced := true, synced_at := some now } :: post) ∧
    (∀ (s : MappingStore) (tk sha : String) (now : Nat) (l : List TicketCommitMapping),
      alistLookup s.mappings tk = some l →
      markSynced s tk sha now = ⟨alistUpdate s.mappings tk (markFirst l sha now)⟩) := by
  refine ⟨?_, ?_, ?_, ?_⟩
  · intro s tk sha now h
    unfold markSynced
    rw [h]
  · intro s tk sha now l hreach h hno
    unfold markSynced
    rw [h]
    show (⟨alistUpdate s.mappings tk (markFirst l sha now)⟩ : MappingStore) = s
    rw [markFirst_no_match l sha now hno,
      alistUpdate_lookup_self s.mappings tk l (wf_reachable hreach).1 h]
  · intro sha now pre
    induction pre with
    | nil =>
      intro post m _ hm
      unfold markFirst
      simp [hm]
    | cons x rest ih =>
      intro post m hpre hm
      have hx : (x.commit_sha == sha) = false := by
        simpa using hpre x (List.mem_cons_self x rest)
      show markFirst (x :: (rest ++ m :: post)) sha now
        = x :: (rest ++ { m with synced := true, synced_at := some now } :: post)
      unfold markFirst
      rw [hx]
      simp only [Bool.false_eq_true, if_false]
      rw [ih post m (fun y hy => hpre y (List.mem_cons_of_mem x hy)) hm]
  · intro s tk sha now l h
    unfold markSynced
    rw [h]

/-- Witness for C6 (amended): the no-op and first-match cases evaluated concretely. -/
theorem mark_synced_behavior_witness :
    markSynced ⟨[]⟩ "X" "y" 7 = (⟨[]⟩ : MappingStore) ∧
    markFirst [⟨"P-1", "aaa", "m1", 1, false, none⟩, ⟨"P-1", "bbb", "m2", 2, false, none⟩]
        "bbb" 9
      = [⟨"P-1", "aaa", "m1", 1, false, none⟩, ⟨"P-1", "bbb", "m2", 2, true, some 9⟩] := by
  constructor
  · exact mark_synced_behavior.1 ⟨[]⟩ "X" "y" 7 rfl
  · exact mark_synced_behavior.2.2.1 "bbb" 9 [⟨"P-1", "aaa", "m1", 1, false, none⟩]
      [] ⟨"P-1", "bbb", "m2", 2, false, none⟩ (by decide) rfl

end Gitdocs

namespace Gitdocs

/-! ## Retry policy model (`src/gitdocs/atlassian/jira_client.py`,
`src/gitdocs/atlassian/confluence_client.py`)

Both clients decorate `get`, `post` and `put` with
`@retry(stop=stop_after_attempt(MAX_RETRIES), retry=retry_if_exception_type((httpx.TimeoutException, httpx.NetworkError)), reraise=True)`;
the legacy Confluence helpers carry no decorator. One attempt is either a transport-level
exception or an HTTP response handled by `_handle_response`. -/

/-- Exceptions observable from one request attempt: the two httpx transport exception classes
listed in `retry_if_exception_type`, plus the errors `_handle_response` raises
(`AuthError` for 401/403, `JiraError`/`ConfluenceError` with a status code otherwise). -/
inductive AtlassianExc where
  | timeoutExc
  | networkExc
  | authError (code : Nat)
  | apiError (code : Nat)
deriving DecidableEq

/-- The retry predicate of the decorator:
`retry_if_exception_type((httpx.TimeoutException, httpx.NetworkError))`. -/
def isTransient : AtlassianExc → Bool
  | .timeoutExc => true
  | .networkExc => true
  | .authError _ => false
  | .apiError _ => false

/-- The transport outcome of a single HTTP attempt: an httpx transport exception, or a
response with a status code and body. -/
inductive TransportResult where
  | timeoutR
  | networkR
  | response (code : Nat) (body : String)

/-- `_handle_response` (jira_client.py lines 74-111, identical structure in
confluence_client.py lines 74-111): map a response to an error or to its parsed body
(a 204 yields the empty body `{}`). -/
def handleResponse (code : Nat) (body : String) : Except AtlassianExc String :=
  if code == 401 then .error (.authError 401)
  else if code == 403 then .error (.authError 403)
  else if code == 404 then .error (.apiError 404)
  else if code == 429 then .error (.apiError 429)
  else if 400 ≤ code then .error (.apiError code)
  else if code == 204 then .ok "{}"
  else .ok body

/-- One attempt of a decorated request method: transport exceptions surface as errors,
responses go through `_handle_response`. -/
def attemptOnce (tr : TransportResult) : Except AtlassianExc String :=
  match tr with
  | .timeoutR => .error .timeoutExc
  | .networkR => .error .networkExc
  | .response code body => handleResponse code body

/-- `MAX_RETRIES` (jira_client.py line 23, confluence_client.py line 22): the
`stop_after_attempt` bound of the decorator. -/
def MAX_RETRIES : Nat := 3

/-- The tenacity retry loop with `stop_after_attempt`/`reraise=True`: run attempt `i`; on an
exception matching the retry predicate, retry while attempts remain, else re-raise. Returns
the final outcome together with the number of attempts performed. -/
def retryAux (f : Nat → Except AtlassianExc String) :
    Nat → Nat → Except AtlassianExc String × Nat
  | 0, i => (f i, i)
  | Nat.succ rem, i =>
    match f i with
    | .ok a => (.ok a, i)
    | .error e =>
      if isTransient e then
        match rem with
        | 0 => (.error e, i)
        | Nat.succ _ => retryAux f rem (i + 1)
      else (.error e, i)

/-- A decorated call: up to `maxAttempts` attempts starting at attempt 1. -/
def retryCall (maxAttempts : Nat) (f : Nat → Except AtlassianExc String) :
    Except AtlassianExc String × Nat :=
  retryAux f maxAttempts 1

/-- `JiraClient.get` (jira_client.py lines 113-134) seen through its `@retry` decorator:
attempt `i` observes transport outcome `tr i`. -/
def jiraGet (tr : Nat → TransportResult) : Except AtlassianExc String × Nat :=
  retryCall MAX_RETRIES (fun i => attemptOnce (tr i))

/-- `JiraClient.post` (jira_client.py lines 136-163): decorated with the same `@retry`. -/
def jiraPost (tr : Nat → TransportResult) : Except AtlassianExc String × Nat :=
  retryCall MAX_RETRIES (fun i => attemptOnce (tr i))

/-- `JiraClient.put` (jira_client.py lines 165-181): decorated with the same `@retry`. -/
def jiraPut (tr : Nat → TransportResult) : Except AtlassianExc String × Nat :=
  retryCall MAX_RETRIES (fun i => attemptOnce (tr i))

/-- `ConfluenceClient.post` (confluence_client.py lines 127-144): decorated with the same
`@retry`. -/
def confluencePost (tr : Nat → TransportResult) : Except AtlassianExc String × Nat :=
  retryCall MAX_RETRIES (fun i => attemptOnce (tr i))

/-- `ConfluenceClient.put` (confluence_client.py lines 146-162): decorated with the same
`@retry`. -/
def confluencePut (tr : Nat → TransportResult) : Except AtlassianExc String × Nat :=
  retryCall MAX_RETRIES (fun i => attemptOnce (tr i))

/-- `ConfluenceClient.post_legacy` (confluence_client.py lines 172-182): no `@retry`
decorator, a single attempt. -/
def confluencePostLegacy (tr : Nat → TransportResult) : Except AtlassianExc String × Nat :=
  (attemptOnce (tr 1), 1)

/-- `ConfluenceClient.put_legacy` (confluence_client.py lines 184-194): no `@retry`
decorator, a single attempt. -/
def confluencePutLegacy (tr : Nat → TransportResult) : Except AtlassianExc String × Nat :=
  (attemptOnce (tr 1), 1)

/-- `JiraClient.apost` (jira_client.py lines 201-210): the async POST carries no `@retry`
decorator either, a single attempt (the `await` sequencing is irrelevant to the attempt
count, so the attempt is modelled synchronously). -/
def jiraApost (tr : Nat → TransportResult) : Except AtlassianExc String × Nat :=
  (attemptOnce (tr 1), 1)

/-- `ConfluenceClient.apost` (confluence_client.py lines 206-214): the async POST carries no
`@retry` decorator either, a single attempt. -/
def confluenceApost (tr : Nat → TransportResult) : Except AtlassianExc String × Nat :=
  (attemptOnce (tr 1), 1)

lemma retryCall_all_transient (f : Nat → Except AtlassianExc String)
    (h : ∀ i, 1 ≤ i → i ≤ 3 → ∃ e, f i = .error e ∧ isTransient e = true) :
    (retryCall 3 f).2 = 3 ∧ ∃ e, (retryCall 3 f).1 = .error e ∧ f 3 = .error e := by
  obtain ⟨e₁, he₁, ht₁⟩ := h 1 (by omega) (by omega)
  obtain ⟨e₂, he₂, ht₂⟩ := h 2 (by omega) (by omega)
  obtain ⟨e₃, he₃, ht₃⟩ := h 3 (by omega) (by omega)
  have : retryCall 3 f = (.error e₃, 3) := by
    simp [retryCall, retryAux, he₁, ht₁, he₂, ht₂, he₃, ht₃]
  rw [this]
  exact ⟨rfl, e₃, rfl, he₃⟩

lemma retryCall_nontransient (f : Nat → Except AtlassianExc String) (e : AtlassianExc)
    (h : f 1 = .error e) (hn : isTransient e = false) : retryCall 3 f = (.error e, 1) := by
  simp [retryCall, retryAux, h, hn]

lemma handleResponse_errors_nontransient (code : Nat) (body : String) (e : AtlassianExc)
    (h : handleResponse code body = .error e) : isTransient e = false := by
  unfold handleResponse at h
  by_cases h1 : code == 401
  · rw [if_pos h1] at h
    cases h
    rfl
  · rw [if_neg h1] at h
    by_cases h2 : code == 403
    · rw [if_pos h2] at h
      cases h
      rfl
    · rw [if_neg h2] at h
      by_cases h3 : code == 404
      · rw [if_pos h3] at h
        cases h
        rfl
      · rw [if_neg h3] at h
        by_cases h4 : code == 429
        · rw [if_pos h4] at h
          cases h
          rfl
        · rw [if_neg h4] at h
          by_cases h5 : 400 ≤ code
          · rw [if_pos h5] at h
            cases h
            rfl
          · rw [if_neg h5] at h
            by_cases h6 : code == 204
            · rw [if_pos h6] at h
              cases h
            · rw [if_neg h6] at h
              cases h

end Gitdocs

namespace Gitdocs

/-- C4: a `get` whose every attempt fails with a transient error (timeout, network
unreachability) is attempted exactly `MAX_RETRIES = 3` times and the error then surfaces;
a `get` failing with a non-transient error is attempted exactly once; every error raised by
`_handle_response` (authorization 401/403, not-found 404, and any client/server status
of at least 400) is non-transient, while the two transport exception classes are transient. -/
theorem retry_bound (tr : Nat → TransportResult) :
    ((∀ i, 1 ≤ i → i ≤ MAX_RETRIES →
        ∃ e, attemptOnce (tr i) = .error e ∧ isTransient e = true) →
      (jiraGet tr).2 = MAX_RETRIES ∧ ∃ e, (jiraGet tr).1 = .error e) ∧
    (∀ e, attemptOnce (tr 1) = .error e → isTransient e = false →
      jiraGet tr = (.error e, 1)) ∧
    (∀ (code : Nat) (body : String) (e : AtlassianExc),
      handleResponse code body = .error e → isTransient e = false) ∧
    (isTransient .timeoutExc = true ∧ isTransient .networkExc = true) := by
  refine ⟨?_, ?_, ?_, rfl, rfl⟩
  · intro h
    have := retryCall_all_transient (fun i => attemptOnce (tr i)) h
    exact ⟨this.1, this.2.imp fun e he => he.1⟩
  · intro e he hn
    exact retryCall_nontransient (fun i => attemptOnce (tr i)) e he hn
  · exact handleResponse_errors_nontransient

/-- Witness for C4: always-timeout transport gives exactly 3 attempts; a 401 response gives
exactly one attempt surfacing the auth error. -/
theorem retry_bound_witness :
    (jiraGet (fun _ => TransportResult.timeoutR)).2 = MAX_RETRIES ∧
    jiraGet (fun _ => TransportResult.response 401 "") = (.error (.authError 401), 1) := by
  constructor
  · exact ((retry_bound (fun _ => TransportResult.timeoutR)).1
      (fun i _ _ => ⟨.timeoutExc, rfl, rfl⟩)).1
  · exact (retry_bound (fun _ => TransportResult.response 401 "")).2.1
      (.authError 401) rfl rfl

/-- C5 counterexample to the claim as stated: the mutating `JiraClient.post` and
`ConfluenceClient.post` carry the same `@retry` decorator as `get`, so a POST that always
fails with a timeout is attempted 3 times, not once. -/
theorem retry_mutating_cex :
    (jiraPost (fun _ => TransportResult.timeoutR)).2 = 3 ∧
    (jiraPost (fun _ => TransportResult.timeoutR)).2 ≠ 1 ∧
    (confluencePost (fun _ => TransportResult.timeoutR)).2 = 3 ∧
    (jiraPut (fun _ => TransportResult.timeoutR)).2 = 3 := by
  refine ⟨rfl, by decide, rfl, rfl⟩

/-- C5 (amended): the retry-with-backoff policy is not restricted to reads — the decorated
mutating calls `JiraClient.post`/`put` and `ConfluenceClient.post`/`put` carry the same
`@retry` decorator as `get`, so a transiently failing call on any of them is retried up to
the same `MAX_RETRIES = 3` bound, and a non-transient failure surfaces after a single
attempt; the undecorated mutating entry points — the legacy Confluence
`post_legacy`/`put_legacy` and the async `apost` of both clients — always perform exactly
one attempt. -/
theorem retry_mutating_policy (tr : Nat → TransportResult) :
    ((∀ i, 1 ≤ i → i ≤ MAX_RETRIES →
        ∃ e, attemptOnce (tr i) = .error e ∧ isTransient e = true) →
      (jiraPost tr).2 = MAX_RETRIES ∧ (jiraPut tr).2 = MAX_RETRIES ∧
      (confluencePost tr).2 = MAX_RETRIES ∧ (confluencePut tr).2 = MAX_RETRIES) ∧
    (∀ e, attemptOnce (tr 1) = .error e → isTransient e = false →
      jiraPost tr = (.error e, 1) ∧ jiraPut tr = (.error e, 1) ∧
      confluencePost tr = (.error e, 1) ∧ confluencePut tr = (.error e, 1)) ∧
    ((confluencePostLegacy tr).2 = 1 ∧ (confluencePutLegacy tr).2 = 1 ∧
      (jiraApost tr).2 = 1 ∧ (confluenceApost tr).2 = 1) := by
  refine ⟨?_, ?_, rfl, rfl, rfl, rfl⟩
  · intro h
    have := retryCall_all_transient (fun i => attemptOnce (tr i)) h
    exact ⟨this.1, this.1, this.1, this.1⟩
  · intro e he hn
    have := retryCall_nontransient (fun i => attemptOnce (tr i)) e he hn
    exact ⟨this, this, this, this⟩

/-- Witness for C5 (amended): always-timeout transport gives 3 attempts on the decorated
POST and PUT of both clients; a 400 response surfaces after one attempt; the undecorated
legacy POST performs one attempt. -/
theorem retry_mutating_policy_witness :
    (jiraPost (fun _ => TransportResult.timeoutR)).2 = MAX_RETRIES ∧
    (confluencePut (fun _ => TransportResult.timeoutR)).2 = MAX_RETRIES ∧
    jiraPost (fun _ => TransportResult.response 400 "bad") = (.error (.apiError 400), 1) ∧
    (confluencePostLegacy (fun _ => TransportResult.timeoutR)).2 = 1 := by
  have h1 := (retry_mutating_policy (fun _ => TransportResult.timeoutR)).1
    (fun i _ _ => ⟨.timeoutExc, rfl, rfl⟩)
  have h2 := ((retry_mutating_policy (fun _ => TransportResult.response 400 "bad")).2.1
    (.apiError 400) rfl rfl).1
  have h3 := (retry_mutating_policy (fun _ => TransportResult.timeoutR)).2.2.1
  exact ⟨h1.1, h1.2.2.2, h2, h3⟩

end Gitdocs

namespace Gitdocs

/-! ## Ticket-key extraction (`src/gitdocs/store/mappings.py` lines 103-135)

`extract_ticket_keys` applies `re.findall(pattern, text, re.IGNORECASE)` for each pattern,
uppercases each captured key, accumulates them in a set, and returns `sorted(keys)`.
The default pattern `DEFAULT_TICKET_PATTERN = r"\b([A-Z][A-Z0-9]+-\d+)\b"` is hand-compiled
below into an equivalent scanner over ASCII text; an arbitrary compilable pattern is
modelled as an opaque findall function, and a malformed pattern as one that fails to
compile (`re.error`). -/

/-- Python's `\b` word characters (ASCII fragment): letters, digits, underscore. -/
def isWordChar (c : Char) : Bool := c.isAlphanum || c == '_'

/-- One anchored match attempt of `\b([A-Z][A-Z0-9]+-\d+)\b` under `re.IGNORECASE` at the
head of `s` (the boundary before the match is the caller's responsibility): a letter, at
least one further letter-or-digit up to a `'-'`, at least one digit, and a word boundary
after the digits. Returns the captured group and the remaining text. -/
def tryTicket (s : List Char) : Option (List Char × List Char) :=
  match s with
  | [] => none
  | c :: rest =>
    if c.isAlpha then
      let run := rest.takeWhile Char.isAlphanum
      let rest1 := rest.dropWhile Char.isAlphanum
      if run.isEmpty then none
      else
        match rest1 with
        | '-' :: rest2 =>
          let digs := rest2.takeWhile Char.isDigit
          let rest3 := rest2.dropWhile Char.isDigit
          if digs.isEmpty then none
          else
            match rest3 with
            | [] => some (c :: (run ++ '-' :: digs), [])
            | d :: _ =>
              if isWordChar d then none else some (c :: (run ++ '-' :: digs), rest3)
        | _ => none
    else none

/-- Left-to-right non-overlapping scan of `re.findall` for the default pattern: try a match
wherever the word-boundary condition holds (previous character non-word or start of text),
else advance one character. `fuel` bounds the recursion; each step consumes at least one
character. -/
def findAux (f : Nat) (prevWord : Bool) (s : List Char) : List (List Char) :=
  match f, s with
  | 0, _ => []
  | _ + 1, [] => []
  | fuel + 1, c :: rest =>
    if prevWord then findAux fuel (isWordChar c) rest
    else
      match tryTicket (c :: rest) with
      | some (m, rest1) => m :: findAux fuel true rest1
      | none => findAux fuel (isWordChar c) rest

/-- `re.findall(DEFAULT_TICKET_PATTERN, text, re.IGNORECASE)` on ASCII text. -/
def findallDefault (s : List Char) : List (List Char) := findAux (s.length + 1) false s

/-- A pattern supplied to `extract_ticket_keys`: the default pattern, a pattern that fails to
compile (raises `re.error`), or an arbitrary compilable pattern modelled by its findall
behaviour (first capture group already projected, as the Python code does for tuples). -/
inductive TicketPattern where
  | defaultPat : TicketPattern
  | malformed : TicketPattern
  | custom (findall : List Char → List (List Char)) : TicketPattern

/-- `re.findall pattern text re.IGNORECASE` wrapped in the `try/except re.error` of
mappings.py lines 122-133: `none` models the `re.error` branch. -/
def compilePattern : TicketPattern → Option (List Char → List (List Char))
  | .defaultPat => some findallDefault
  | .malformed => none
  | .custom f => some f

/-- `keys.add(key)`: the Python set accumulator, as an ordered duplicate-free list. -/
def addKey (acc : List (List Char)) (k : List Char) : List (List Char) :=
  if k ∈ acc then acc else acc ++ [k]

/-- Python string comparison: lexicographic by code point, a proper prefix sorts first. -/
def lexLe : List Char → List Char → Bool
  | [], _ => true
  | _ :: _, [] => false
  | a :: as, b :: bs =>
    if a < b then true
    else if b < a then false
    else lexLe as bs

/-- Insertion step of `sorted(keys)`. -/
def insertSorted (x : List Char) : List (List Char) → List (List Char)
  | [] => [x]
  | y :: ys => if lexLe x y then x :: y :: ys else y :: insertSorted x ys

/-- `sorted(keys)`: a sorting of the accumulated key set under `lexLe`. -/
def sortKeys (l : List (List Char)) : List (List Char) := l.foldr insertSorted []

/-- `key = match.upper(); keys.add(key)` for one captured match. -/
def addUpper (acc : List (List Char)) (m : List Char) : List (List Char) :=
  addKey acc (m.map Char.toUpper)

/-- The body of the pattern loop: a malformed pattern is skipped (the `except re.error`
branch), a valid one contributes its uppercased matches to the key set. -/
def patStep (text : List Char) (acc : List (List Char)) (p : TicketPattern) :
    List (List Char) :=
  match compilePattern p with
  | none => acc
  | some g => (g text).foldl addUpper acc

/-- The `keys` set after the pattern loop of `extract_ticket_keys`: for each pattern in
order, findall (skipping malformed patterns) and add each captured match uppercased. -/
def collectKeys (text : List Char) (pats : List TicketPattern) : List (List Char) :=
  pats.foldl (patStep text) []

/-- `extract_ticket_keys` (mappings.py lines 103-135): `patterns = None` selects the default
pattern; returns `sorted(keys)`. -/
def extractTicketKeys (text : List Char) (patterns : Option (List TicketPattern)) :
    List (List Char) :=
  sortKeys (collectKeys text (patterns.getD [TicketPattern.defaultPat]))

end Gitdocs

namespace Gitdocs

/-! ### Ordering and sorting lemmas for `sorted(keys)` -/

lemma lexLe_total : ∀ (a b : List Char), lexLe a b = true ∨ lexLe b a = true := by
  intro a
  induction a with
  | nil => intro b; left; rfl
  | cons x xs ih =>
    intro b
    cases b with
    | nil => right; rfl
    | cons y ys =>
      unfold lexLe
      rcases lt_trichotomy x y with h | h | h
      · left
        rw [if_pos h]
      · subst h
        have hnx : ¬ x < x := lt_irrefl x
        rcases ih ys with h' | h'
        · left
          rw [if_neg hnx, if_neg hnx]
          exact h'
        · right
          rw [if_neg hnx, if_neg hnx]
          exact h'
      · right
        rw [if_pos h]

lemma lexLe_trans : ∀ (a b c : List Char), lexLe a b = true → lexLe b c = true →
    lexLe a c = true := by
  intro a
  induction a with
  | nil => intro b c _ _; rfl
  | cons x xs ih =>
    intro b c h1 h2
    cases b with
    | nil => simp [lexLe] at h1
    | cons y ys =>
      cases c with
      | nil => simp [lexLe] at h2
      | cons z zs =>
        unfold lexLe at h1 h2 ⊢
        by_cases hxy : x < y
        · rw [if_pos hxy] at h1
          by_cases hyz : y < z
          · rw [if_pos (lt_trans hxy hyz)]
          · by_cases hzy : z < y
            · rw [if_neg hyz, if_pos hzy] at h2
              exact absurd h2 (by simp)
            · have : y = z := le_antisymm (not_lt.mp hzy) (not_lt.mp hyz)
              subst this
              rw [if_pos hxy]
        · by_cases hyx : y < x
          · rw [if_neg hxy, if_pos hyx] at h1
            exact absurd h1 (by simp)
          · have hxy' : x = y := le_antisymm (not_lt.mp hyx) (not_lt.mp hxy)
            subst hxy'
            rw [if_neg hxy, if_neg hyx] at h1
            by_cases hyz : x < z
            · rw [if_pos hyz]
            · by_cases hzy : z < x
              · rw [if_neg hyz, if_pos hzy] at h2
                exact absurd h2 (by simp)
              · have : x = z := le_antisymm (not_lt.mp hzy) (not_lt.mp hyz)
                subst this
                rw [if_neg hyz, if_neg hzy] at h2 ⊢
                exact ih ys zs h1 h2

lemma mem_insertSorted (x a : List Char) :
    ∀ (l : List (List Char)), a ∈ insertSorted x l ↔ a = x ∨ a ∈ l := by
  intro l
  induction l with
  | nil => simp [insertSorted]
  | cons y ys ih =>
    unfold insertSorted
    by_cases h : lexLe x y
    · rw [if_pos h]
      simp [List.mem_cons]
    · rw [if_neg h]
      simp only [List.mem_cons, ih]
      tauto

lemma pairwise_insertSorted (x : List Char) :
    ∀ (l : List (List Char)), l.Pairwise (fun u v => lexLe u v = true) →
      (insertSorted x l).Pairwise (fun u v => lexLe u v = true) := by
  intro l
  induction l with
  | nil => intro _; simp [insertSorted]
  | cons y ys ih =>
    intro h
    rw [List.pairwise_cons] at h
    obtain ⟨hy, hys⟩ := h
    unfold insertSorted
    by_cases hxy : lexLe x y
    · rw [if_pos hxy]
      rw [List.pairwise_cons]
      refine ⟨?_, List.pairwise_cons.mpr ⟨hy, hys⟩⟩
      intro z hz
      rcases List.mem_cons.mp hz with rfl | hz'
      · exact hxy
      · exact lexLe_trans x y z hxy (hy z hz')
    · rw [if_neg hxy]
      rw [List.pairwise_cons]
      constructor
      · intro z hz
        rcases (mem_insertSorted x z ys).mp hz with rfl | hz'
        · rcases lexLe_total z y with h' | h'
          · exact absurd h' hxy
          · exact h'
        · exact hy z hz'
      · exact ih hys

lemma perm_insertSorted (x : List Char) :
    ∀ (l : List (List Char)), (insertSorted x l).Perm (x :: l) := by
  intro l
  induction l with
  | nil => simp [insertSorted]
  | cons y ys ih =>
    unfold insertSorted
    by_cases h : lexLe x y
    · rw [if_pos h]
    · rw [if_neg h]
      exact (ih.cons y).trans (List.Perm.swap x y ys)

lemma perm_sortKeys : ∀ (l : List (List Char)), (sortKeys l).Perm l := by
  intro l
  induction l with
  | nil => simp [sortKeys]
  | cons a l ih =>
    show (insertSorted a (sortKeys l)).Perm (a :: l)
    exact (perm_insertSorted a (sortKeys l)).trans (ih.cons a)

lemma sorted_sortKeys : ∀ (l : List (List Char)),
    (sortKeys l).Pairwise (fun u v => lexLe u v = true) := by
  intro l
  induction l with
  | nil => simp [sortKeys]
  | cons a l ih =>
    show (insertSorted a (sortKeys l)).Pairwise (fun u v => lexLe u v = true)
    exact pairwise_insertSorted a (sortKeys l) ih

lemma mem_sortKeys (a : List Char) (l : List (List Char)) : a ∈ sortKeys l ↔ a ∈ l :=
  (perm_sortKeys l).mem_iff

lemma nodup_sortKeys (l : List (List Char)) (h : l.Nodup) : (sortKeys l).Nodup :=
  ((perm_sortKeys l).nodup_iff).mpr h

end Gitdocs

namespace Gitdocs

/-! ### Key-set accumulation lemmas -/

lemma mem_addKey (acc : List (List Char)) (k a : List Char) :
    a ∈ addKey acc k ↔ a ∈ acc ∨ a = k := by
  unfold addKey
  by_cases h : k ∈ acc
  · rw [if_pos h]
    constructor
    · exact Or.inl
    · rintro (ha | rfl)
      · exact ha
      · exact h
  · rw [if_neg h]
    simp

lemma nodup_addKey (acc : List (List Char)) (k : List Char) (h : acc.Nodup) :
    (addKey acc k).Nodup := by
  unfold addKey
  by_cases hk : k ∈ acc
  · rw [if_pos hk]
    exact h
  · rw [if_neg hk]
    rw [List.nodup_append]
    refine ⟨h, List.nodup_singleton k, ?_⟩
    intro a ha hb
    rw [List.mem_singleton] at hb
    subst hb
    exact hk ha

lemma foldl_addUpper_nodup :
    ∀ (ms : List (List Char)) (acc : List (List Char)), acc.Nodup →
      (ms.foldl addUpper acc).Nodup := by
  intro ms
  induction ms with
  | nil => intro acc h; exact h
  | cons m rest ih =>
    intro acc h
    rw [List.foldl_cons]
    exact ih (addUpper acc m) (nodup_addKey acc (m.map Char.toUpper) h)

lemma foldl_addUpper_mono :
    ∀ (ms : List (List Char)) (acc : List (List Char)) (a : List Char), a ∈ acc →
      a ∈ ms.foldl addUpper acc := by
  intro ms
  induction ms with
  | nil => intro acc a h; exact h
  | cons m rest ih =>
    intro acc a h
    rw [List.foldl_cons]
    exact ih (addUpper acc m) a ((mem_addKey acc (m.map Char.toUpper) a).mpr (Or.inl h))

lemma foldl_addUpper_mem :
    ∀ (ms : List (List Char)) (acc : List (List Char)) (m : List Char), m ∈ ms →
      (m.map Char.toUpper) ∈ ms.foldl addUpper acc := by
  intro ms
  induction ms with
  | nil => intro acc m h; simp at h
  | cons x rest ih =>
    intro acc m h
    rw [List.foldl_cons]
    rcases List.mem_cons.mp h with rfl | h'
    · exact foldl_addUpper_mono rest (addUpper acc m) (m.map Char.toUpper)
        ((mem_addKey acc (m.map Char.toUpper) _).mpr (Or.inr rfl))
    · exact ih (addUpper acc x) m h'

lemma foldl_addUpper_image :
    ∀ (ms : List (List Char)) (acc : List (List Char)),
      (∀ x ∈ acc, ∃ m : List Char, x = m.map Char.toUpper) →
      ∀ x ∈ ms.foldl addUpper acc, ∃ m : List Char, x = m.map Char.toUpper := by
  intro ms
  induction ms with
  | nil => intro acc h; exact h
  | cons m rest ih =>
    intro acc h
    rw [List.foldl_cons]
    apply ih
    intro x hx
    rcases (mem_addKey acc (m.map Char.toUpper) x).mp hx with hx' | rfl
    · exact h x hx'
    · exact ⟨m, rfl⟩

lemma foldl_patStep_nodup (text : List Char) :
    ∀ (ps : List TicketPattern) (acc : List (List Char)), acc.Nodup →
      (ps.foldl (patStep text) acc).Nodup := by
  intro ps
  induction ps with
  | nil => intro acc h; exact h
  | cons p rest ih =>
    intro acc h
    rw [List.foldl_cons]
    apply ih
    unfold patStep
    cases compilePattern p with
    | none => exact h
    | some g => exact foldl_addUpper_nodup (g text) acc h

lemma foldl_patStep_mono (text : List Char) :
    ∀ (ps : List TicketPattern) (acc : List (List Char)) (a : List Char), a ∈ acc →
      a ∈ ps.foldl (patStep text) acc := by
  intro ps
  induction ps with
  | nil => intro acc a h; exact h
  | cons p rest ih =>
    intro acc a h
    rw [List.foldl_cons]
    apply ih
    unfold patStep
    cases compilePattern p with
    | none => exact h
    | some g => exact foldl_addUpper_mono (g text) acc a h

lemma foldl_patStep_image (text : List Char) :
    ∀ (ps : List TicketPattern) (acc : List (List Char)),
      (∀ x ∈ acc, ∃ m : List Char, x = m.map Char.toUpper) →
      ∀ x ∈ ps.foldl (patStep text) acc, ∃ m : List Char, x = m.map Char.toUpper := by
  intro ps
  induction ps with
  | nil => intro acc h; exact h
  | cons p rest ih =>
    intro acc h
    rw [List.foldl_cons]
    apply ih
    unfold patStep
    cases compilePattern p with
    | none => exact h
    | some g => exact foldl_addUpper_image (g text) acc h

lemma foldl_patStep_filter (text : List Char) :
    ∀ (ps : List TicketPattern) (acc : List (List Char)),
      ps.foldl (patStep text) acc
        = (ps.filter (fun p => (compilePattern p).isSome)).foldl (patStep text) acc := by
  intro ps
  induction ps with
  | nil => intro acc; rfl
  | cons p rest ih =>
    intro acc
    rw [List.foldl_cons, List.filter_cons]
    cases hc : compilePattern p with
    | none =>
      have hstep : patStep text acc p = acc := by
        unfold patStep
        rw [hc]
      rw [hstep]
      simp only [Option.isSome_none, Bool.false_eq_true, if_false]
      exact ih acc
    | some g =>
      simp only [Option.isSome_some, if_true]
      rw [List.foldl_cons]
      exact ih (patStep text acc p)

lemma mem_patStep_of_match (text : List Char) :
    ∀ (ps : List TicketPattern) (acc : List (List Char)) (p : TicketPattern)
      (g : List Char → List (List Char)) (m : List Char),
      p ∈ ps → compilePattern p = some g → m ∈ g text →
      (m.map Char.toUpper) ∈ ps.foldl (patStep text) acc := by
  intro ps
  induction ps with
  | nil => intro acc p g m h; simp at h
  | cons q rest ih =>
    intro acc p g m hp hc hm
    rw [List.foldl_cons]
    rcases List.mem_cons.mp hp with rfl | hp'
    · apply foldl_patStep_mono text rest
      unfold patStep
      rw [hc]
      exact foldl_addUpper_mem (g text) acc m hm
    · exact ih (patStep text acc q) p g m hp' hc hm

end Gitdocs

namespace Gitdocs

/-- C7: `extract_ticket_keys` returns an alphabetically sorted, duplicate-free list in which
every key is the uppercase image of a captured match (case-insensitive matching with
uppercase normalization); concretely `extract("PROJ-1 and proj-1")` is exactly
`["PROJ-1"]`, `extract("ZED-9 ABC-1")` is `["ABC-1", "ZED-9"]`, and empty text or text
without matches yields the empty list. -/
theorem extract_ticket_keys_spec :
    (∀ (text : List Char) (pats : Option (List TicketPattern)),
      (extractTicketKeys text pats).Pairwise (fun u v => lexLe u v = true)) ∧
    (∀ (text : List Char) (pats : Option (List TicketPattern)),
      (extractTicketKeys text pats).Nodup) ∧
    (∀ (text : List Char) (pats : Option (List TicketPattern)) (k : List Char),
      k ∈ extractTicketKeys text pats → ∃ m : List Char, k = m.map Char.toUpper) ∧
    (∀ text : List Char, findallDefault text = [] → extractTicketKeys text none = []) ∧
    extractTicketKeys ("PROJ-1 and proj-1".toList) none = ["PROJ-1".toList] ∧
    extractTicketKeys ("ZED-9 ABC-1".toList) none = ["ABC-1".toList, "ZED-9".toList] ∧
    extractTicketKeys [] none = [] := by
  refine ⟨?_, ?_, ?_, ?_, ?_, ?_, ?_⟩
  · intro text pats
    exact sorted_sortKeys _
  · intro text pats
    exact nodup_sortKeys _ (foldl_patStep_nodup text _ [] List.nodup_nil)
  · intro text pats k hk
    unfold extractTicketKeys at hk
    rw [mem_sortKeys] at hk
    unfold collectKeys at hk
    exact foldl_patStep_image text _ [] (by intro x hx; simp at hx) k hk
  · intro text h
    show sortKeys (collectKeys text [TicketPattern.defaultPat]) = []
    have hc : collectKeys text [TicketPattern.defaultPat] = [] := by
      unfold collectKeys
      simp [patStep, compilePattern, h]
    rw [hc]
    rfl
  · decide
  · decide
  · rfl

/-- Witness for C7: text consisting of a lone hyphen has no matches under the default
pattern and extraction returns the empty list. -/
theorem extract_ticket_keys_spec_witness : extractTicketKeys ['-'] none = [] :=
  extract_ticket_keys_spec.2.2.2.1 ['-'] rfl

/-- C8: a pattern that fails to compile is skipped: extraction never raises (the embedding
is total), the result equals extraction over only the compilable patterns of the list, and
every key matched by a remaining valid pattern is still in the result; concretely, with a
malformed pattern before the default one, `extract("see ABC-1")` still returns
`["ABC-1"]`. -/
theorem extract_malformed_skip :
    (∀ (text : List Char) (ps : List TicketPattern),
      extractTicketKeys text (some ps)
        = extractTicketKeys text (some (ps.filter (fun p => (compilePattern p).isSome)))) ∧
    (∀ (text : List Char) (ps : List TicketPattern) (p : TicketPattern)
      (g : List Char → List (List Char)) (m : List Char),
      p ∈ ps → compilePattern p = some g → m ∈ g text →
      (m.map Char.toUpper) ∈ extractTicketKeys text (some ps)) ∧
    extractTicketKeys ("see ABC-1".toList)
        (some [TicketPattern.malformed, TicketPattern.defaultPat])
      = ["ABC-1".toList] := by
  refine ⟨?_, ?_, ?_⟩
  · intro text ps
    show sortKeys (ps.foldl (patStep text) [])
      = sortKeys ((ps.filter (fun p => (compilePattern p).isSome)).foldl (patStep text) [])
    rw [foldl_patStep_filter]
  · intro text ps p g m hp hc hm
    show (m.map Char.toUpper) ∈ sortKeys (ps.foldl (patStep text) [])
    rw [mem_sortKeys]
    exact mem_patStep_of_match text ps [] p g m hp hc hm
  · decide

/-- Witness for C8: the key matched by the valid default pattern survives the malformed
pattern in front of it. -/
theorem extract_malformed_skip_witness :
    ("ABC-1".toList.map Char.toUpper) ∈ extractTicketKeys ("see ABC-1".toList)
      (some [TicketPattern.malformed, TicketPattern.defaultPat]) :=
  extract_malformed_skip.2.1 ("see ABC-1".toList)
    [TicketPattern.malformed, TicketPattern.defaultPat]
    TicketPattern.defaultPat findallDefault ("ABC-1".toList)
    (List.mem_cons_of_mem _ (List.mem_cons_self _ _)) rfl (by decide)

end Gitdocs
